import Mathlib

/-!
Verification of the transfer classification and aggregation core of
`BASIC_ASSESMENT.py` (fraud_explorer).

The Python core is shallowly embedded: pandas DataFrames become lists of
records, the pandas inner merge becomes an explicit list join, and the two
directory tables (supabase `suspicious_tokens_directory` and `safe_tokens`)
become functions from a blockchain name to a list of directory entries.
In-place column mutation (`transfers_df['contract_address'] = ...str.lower()`)
is made explicit: the classification functions return the updated transfer
list together with the classified set, and `analyze_transfers_data` threads
that updated list through, exactly as the Python object identity does.
-/

/-- A token transfer row, as built by `get_token_transfers`
(`BASIC_ASSESMENT.py` lines 545-560).  Timestamps are modelled as a single
`Nat` (the code keeps `block_timestamp` strings whose lexicographic order is
chronological; the derived calendar day is the truncation `dateOf`).
The unused display columns (`block_number`, `amount`) are omitted. -/
structure Transfer where
  tx_hash : String
  contract_address : String
  from_address : String
  to_address : String
  symbol : String
  block_timestamp : Nat
  blockchain : String
deriving Repr, DecidableEq

/-- A directory row as selected by the loaders
(`load_suspicious_tokens_by_blockchain` returns columns
`contract_address, blockchain, tag, tag_1, created_block_timestamp, name`;
`load_safe_tokens_by_blockchain` returns the first four).  Only the columns
that the verified properties mention are kept (`name` and
`created_block_timestamp` are display-only and never read by the core). -/
structure DirEntry where
  contract_address : String
  blockchain : String
  tag : String
  tag_1 : String
deriving Repr, DecidableEq

/-- Python `str.lower()`, character by character (contract addresses and
blockchain names in this program are ASCII, where the two agree).  Written on
the character list so that concrete evaluation reduces in the kernel. -/
def strLower (s : String) : String := ⟨s.data.map Char.toLower⟩

/-- `transfers_df['contract_address'].str.lower()` applied to one row. -/
def lowerT (t : Transfer) : Transfer :=
  { t with contract_address := strLower t.contract_address }

/-- `suspicious_tokens['contract_address'].str.lower()` applied to one row. -/
def lowerE (e : DirEntry) : DirEntry :=
  { e with contract_address := strLower e.contract_address }

/-- `df.drop_duplicates(subset=['contract_address'])` (keep first occurrence),
written with an accumulator of already-seen addresses so that it is
structurally recursive.  Line 133 of the source. -/
def dedupFirstAux : List DirEntry → List String → List DirEntry
  | [], _ => []
  | e :: es, seen =>
      if e.contract_address ∈ seen then dedupFirstAux es seen
      else e :: dedupFirstAux es (e.contract_address :: seen)

/-- Deduplicate a directory by `contract_address`, keeping first occurrences. -/
def dedupFirst (l : List DirEntry) : List DirEntry := dedupFirstAux l []

/-- `load_suspicious_tokens_by_blockchain` (lines 84-139): fetch the rows of
`suspicious_tokens_directory` whose `blockchain` equals the lowercased
argument, then drop duplicate `contract_address` rows (keep first).
The paginated fetch itself is the external collaborator: it is modelled as a
function `dirs` from a blockchain name to the fetched rows. -/
def load_suspicious_tokens_by_blockchain (dirs : String → List DirEntry)
    (blockchain : String) : List DirEntry :=
  dedupFirst (dirs (strLower blockchain))

/-- `load_safe_tokens_by_blockchain` (lines 141-191): same fetch from the
`safe_tokens` table, with NO duplicate-dropping step. -/
def load_safe_tokens_by_blockchain (dirs : String → List DirEntry)
    (blockchain : String) : List DirEntry :=
  dirs (strLower blockchain)

/-- `pd.merge(transfers_df, tokens, on=['contract_address'], how='inner')`:
for each left row in order, all right rows whose `contract_address` is equal,
in right order.  The merged row keeps both sides (the shared join column is
equal on both components). -/
def mergeInner (ts : List Transfer) (dir : List DirEntry) :
    List (Transfer × DirEntry) :=
  ts.flatMap fun t =>
    (dir.filter fun e => e.contract_address == t.contract_address).map
      fun e => (t, e)

/-- `identify_suspicious_transfers` (lines 194-225).  Takes the suspicious
directory source and the transfer list; returns the transfer list as left by
the call (the Python code lowercases the caller's `contract_address` column in
place when the directory is non-empty) together with the merged suspicious
set.  Empty input or an empty directory yields an empty result set. -/
def identify_suspicious_transfers (dirs : String → List DirEntry)
    (transfers : List Transfer) : List Transfer × List (Transfer × DirEntry) :=
  match transfers with
  | [] => ([], [])
  | t0 :: _ =>
      let suspicious_tokens := load_suspicious_tokens_by_blockchain dirs t0.blockchain
      if suspicious_tokens.isEmpty then (transfers, [])
      else
        let ts := transfers.map lowerT
        (ts, mergeInner ts (suspicious_tokens.map lowerE))

/-- `identify_safe_transfers` (lines 227-258): identical shape, reading the
`safe_tokens` table (no dedup in its loader). -/
def identify_safe_transfers (dirs : String → List DirEntry)
    (transfers : List Transfer) : List Transfer × List (Transfer × DirEntry) :=
  match transfers with
  | [] => ([], [])
  | t0 :: _ =>
      let safe_tokens := load_safe_tokens_by_blockchain dirs t0.blockchain
      if safe_tokens.isEmpty then (transfers, [])
      else
        let ts := transfers.map lowerT
        (ts, mergeInner ts (safe_tokens.map lowerE))

/-- Calendar day of a transfer: `pd.to_datetime(block_timestamp).dt.date`,
i.e. truncation of the timestamp to its day. -/
def dateOf (t : Transfer) : Nat := t.block_timestamp / 86400

/-- Distinct values of a list in order of first appearance (the key order a
pandas hashtable produces), with a seen-accumulator for structural
recursion. -/
def firstKeysAux {α : Type} [DecidableEq α] : List α → List α → List α
  | [], _ => []
  | x :: xs, seen =>
      if x ∈ seen then firstKeysAux xs seen
      else x :: firstKeysAux xs (x :: seen)

/-- Distinct values in order of first appearance. -/
def firstKeys {α : Type} [DecidableEq α] (l : List α) : List α :=
  firstKeysAux l []

/-- Insertion step of an insertion sort by a strict comparison. -/
def insertLt {α : Type} (lt : α → α → Bool) (x : α) : List α → List α
  | [] => [x]
  | y :: ys => if lt x y then x :: y :: ys else y :: insertLt lt x ys

/-- Insertion sort by a strict comparison (used on duplicate-free key lists,
where it produces the unique ascending order, as pandas `groupby` does). -/
def sortLt {α : Type} (lt : α → α → Bool) (l : List α) : List α :=
  l.foldr (insertLt lt) []

/-- `Nat.lt` as a Bool, for sorting date keys ascending as `groupby` does. -/
def natLtB (a b : Nat) : Bool := decide (a < b)

/-- `Series.nunique()`: the number of distinct values. -/
def nunique (l : List String) : Nat := l.dedup.length

/-- Number of occurrences of a value in a column. -/
def countOf (cs : List String) (x : String) : Nat :=
  (cs.filter (· == x)).length

/-- Stable ascending insertion (by count) for `value_counts`:
an element is placed before the first element with a count ≥ its own, so a
`foldr` over the key list is a stable ascending sort. -/
def insertCountLe (p : String × Nat) :
    List (String × Nat) → List (String × Nat)
  | [] => [p]
  | q :: qs => if p.2 ≤ q.2 then p :: q :: qs else q :: insertCountLe p qs

/-- `Series.value_counts()`: keys in first-appearance order with their counts,
then `sort_values(ascending=False)`.  pandas implements the descending sort by
reversing an ascending argsort (`nargsort`: `indexer[::-1]`), so ties end up
in reverse first-appearance order; the ascending argsort is modelled as a
stable insertion sort, which matches numpy's insertion sort on the small
arrays this dashboard produces. -/
def valueCounts (cs : List String) : List (String × Nat) :=
  (((firstKeys cs).map fun k => (k, countOf cs k)).foldr insertCountLe []).reverse

/-- Lookup of a date key in a (date, count) table, 0 when absent: the
`fillna(0)` of the left merge. -/
def lookup0 (d : Nat) (l : List (Nat × Nat)) : Nat :=
  match l.find? fun p => p.1 == d with
  | some p => p.2
  | none => 0

/-- `pd.merge(left, right, on='date', how='left').fillna(0)`: every left row,
with the right count when the date is present on the right, else 0. -/
def leftMergeFill (left right : List (Nat × Nat)) : List (Nat × Nat × Nat) :=
  left.map fun p => (p.1, p.2, lookup0 p.1 right)

/-- `df.groupby('date').size()`: per day (ascending), the number of rows. -/
def groupSizeByDate (ts : List Transfer) : List (Nat × Nat) :=
  (sortLt natLtB (firstKeys (ts.map dateOf))).map
    fun d => (d, (ts.filter fun t => dateOf t == d).length)

/-- `df.groupby('date')['contract_address'].nunique()`: per day (ascending),
the number of distinct contracts. -/
def groupNuniqueByDate (ts : List Transfer) : List (Nat × Nat) :=
  (sortLt natLtB (firstKeys (ts.map dateOf))).map
    fun d =>
      (d, nunique ((ts.filter fun t => dateOf t == d).map
        fun t => t.contract_address))

/-- Stable ascending insertion by `block_timestamp`. -/
def insertTsLe (t : Transfer) : List Transfer → List Transfer
  | [] => [t]
  | u :: us =>
      if t.block_timestamp ≤ u.block_timestamp then t :: u :: us
      else u :: insertTsLe t us

/-- `transfers_df.sort_values('block_timestamp', ascending=False)`:
pandas reverses a (modelled stable) ascending argsort. -/
def sortRecentFirst (ts : List Transfer) : List Transfer :=
  (ts.foldr insertTsLe []).reverse

/-- One row of the `recent_transfers` projection (lines 656-669). -/
structure RecentRow where
  tx_hash : String
  contract_address : String
  from_address : String
  to_address : String
  symbol : String
  block_timestamp : Nat
  suspicious : Bool
  safe : Bool
  tag : String
  tag_1 : String
deriving Repr, DecidableEq

/-- Annotation of one transfer row against the two classified sets
(lines 624-669): a suspicious match (same `tx_hash` and `contract_address`,
first such row) wins; the safe set is only consulted when there is no
suspicious match; `tag`/`tag_1` fall back to "Caution"/"No Detail" when the
matched value is falsy (Python `tag if tag else "Caution"`) or when nothing
matched. -/
def recentRowOf (susp safes : List (Transfer × DirEntry)) (t : Transfer) :
    RecentRow :=
  let base : RecentRow :=
    { tx_hash := t.tx_hash, contract_address := t.contract_address,
      from_address := t.from_address, to_address := t.to_address,
      symbol := t.symbol, block_timestamp := t.block_timestamp,
      suspicious := false, safe := false,
      tag := "Caution", tag_1 := "No Detail" }
  match susp.find? fun p =>
      p.1.tx_hash == t.tx_hash && p.1.contract_address == t.contract_address with
  | some p =>
      { base with
        suspicious := true
        tag := if p.2.tag = "" then "Caution" else p.2.tag
        tag_1 := if p.2.tag_1 = "" then "No Detail" else p.2.tag_1 }
  | none =>
      match safes.find? fun q =>
          q.1.tx_hash == t.tx_hash && q.1.contract_address == t.contract_address with
      | some q =>
          { base with
            safe := true
            tag := if q.2.tag = "" then "Caution" else q.2.tag
            tag_1 := if q.2.tag_1 = "" then "No Detail" else q.2.tag_1 }
      | none => base

/-- `.round(1)` on a percentage: round to the nearest tenth.  (The source
rounds an IEEE double; the exact-rational rounding used here agrees except on
exact midpoints, where numpy rounds half to even — both are
round-to-nearest, which is all the verified bounds use.) -/
def round1 (q : ℚ) : ℚ := ((round (q * 10) : ℤ) : ℚ) / 10

/-- One row of a tag breakdown (`suspicious_tags` / `safe_tags`). -/
structure TagRow where
  tag : String
  count : Nat
  percent : ℚ
deriving Repr, DecidableEq

/-- Lexicographic comparison of character lists by code point, the order
Python uses on strings.  Written recursively so that it reduces in the
kernel (the library's `String` order instance does not). -/
def charListLt : List Char → List Char → Bool
  | [], [] => false
  | [], _ :: _ => true
  | _ :: _, [] => false
  | c :: cs, d :: ds =>
      if c.toNat < d.toNat then true
      else if d.toNat < c.toNat then false
      else charListLt cs ds

/-- String `<` as a Bool, for sorting group keys the way pandas sorts them. -/
def strLtB (a b : String) : Bool := charListLt a.data b.data

/-- `suspicious_tags` (lines 678-690): group the suspicious set by `tag_1`
(keys ascending, as `groupby` sorts), count distinct contracts per group, and
the percentage of total distinct suspicious contracts rounded to 1 decimal.
On an empty suspicious set this is the empty table, as in the source's
`else` branch. -/
def suspiciousTagsOf (susp : List (Transfer × DirEntry)) : List TagRow :=
  let total := nunique (susp.map fun p => p.1.contract_address)
  (sortLt strLtB (firstKeys (susp.map fun p => p.2.tag_1))).map fun g =>
    let cnt := nunique ((susp.filter fun p => p.2.tag_1 == g).map
      fun p => p.1.contract_address)
    { tag := g, count := cnt
      percent := if total = 0 then 0
                 else round1 ((cnt : ℚ) / (total : ℚ) * 100) }

/-- `safe_tags` (lines 699-704): same grouping over the safe set; the
percentage here is NOT rounded in the source. -/
def safeTagsOf (safes : List (Transfer × DirEntry)) : List TagRow :=
  let total := nunique (safes.map fun p => p.1.contract_address)
  (sortLt strLtB (firstKeys (safes.map fun p => p.2.tag_1))).map fun g =>
    let cnt := nunique ((safes.filter fun p => p.2.tag_1 == g).map
      fun p => p.1.contract_address)
    { tag := g, count := cnt, percent := (cnt : ℚ) / (total : ℚ) * 100 }

/-- The `summary` block of the returned structure (lines 717-726). -/
structure Summary where
  total_transfers : Nat
  unique_tokens : Nat
  suspicious_count : Nat
  suspicious_tokens : Nat
  suspicious_senders : Nat
  safe_count : Nat
  safe_tokens : Nat
  safe_senders : Nat
deriving Repr, DecidableEq

/-- The dictionary returned by `analyze_transfers_data` (lines 716-736).
Timelines are (date, all-count, suspicious-count) triples, ascending. -/
structure AnalysisResult where
  summary : Summary
  top_tokens : List (String × Nat)
  activity_timeline : List (Nat × Nat × Nat)
  tokens_timeline : List (Nat × Nat × Nat)
  recent_transfers : List RecentRow
  suspicious_transfers : List (Transfer × DirEntry)
  suspicious_tags : List TagRow
  safe_transfers : List (Transfer × DirEntry)
  safe_tags : List TagRow
  raw_data : List Transfer
deriving Repr, DecidableEq

/-- Body of `analyze_transfers_data` for a non-empty input (lines 577-736).
The input list is first passed to `identify_suspicious_transfers`, whose
updated (possibly lowercased) list is what `identify_safe_transfers` and all
later aggregation see — exactly the source's in-place mutation of
`transfers_df`. -/
def analyzeCore (sdirs fdirs : String → List DirEntry)
    (transfers : List Transfer) : AnalysisResult :=
  let step1 := identify_suspicious_transfers sdirs transfers
  let susp := step1.2
  let step2 := identify_safe_transfers fdirs step1.1
  let safes := step2.2
  let df := step2.1
  let cs := df.map fun t => t.contract_address
  { summary :=
      { total_transfers := df.length
        unique_tokens := nunique cs
        suspicious_count := susp.length
        suspicious_tokens := nunique (susp.map fun p => p.1.contract_address)
        suspicious_senders := nunique (susp.map fun p => p.1.from_address)
        safe_count := safes.length
        safe_tokens := nunique (safes.map fun p => p.1.contract_address)
        safe_senders := nunique (safes.map fun p => p.1.from_address) }
    top_tokens := (valueCounts cs).take 5
    activity_timeline :=
      leftMergeFill (groupSizeByDate df) (groupSizeByDate (susp.map Prod.fst))
    tokens_timeline :=
      leftMergeFill (groupNuniqueByDate df)
        (groupNuniqueByDate (susp.map Prod.fst))
    recent_transfers := (sortRecentFirst df).map (recentRowOf susp safes)
    suspicious_transfers := susp
    suspicious_tags := suspiciousTagsOf susp
    safe_transfers := safes
    safe_tags := safeTagsOf safes
    raw_data := df }

/-- `analyze_transfers_data` (lines 573-742): `None` on an empty input
(line 574-575), otherwise the populated structure. -/
def analyze_transfers_data (sdirs fdirs : String → List DirEntry)
    (transfers : List Transfer) : Option AnalysisResult :=
  if transfers.isEmpty then none else some (analyzeCore sdirs fdirs transfers)

/-! ### Concrete fixtures used by witnesses and counterexamples -/

/-- Fixture: a transfer with the given hash, contract and timestamp, on
ethereum. -/
def sampleT (h c : String) (n : Nat) : Transfer :=
  ⟨h, c, "0xsender", "0xreceiver", "TKN", n, "ethereum"⟩

/-- Fixture: the spec example's suspicious directory entry. -/
def ePhish : DirEntry := ⟨"0xabc", "ethereum", "High Risk", "Phishing"⟩

/-- Fixture: suspicious-directory source holding only `ePhish`, on ethereum. -/
def sdirsEx (b : String) : List DirEntry :=
  if b = "ethereum" then [ePhish] else []

/-- Fixture: an empty directory source. -/
def noDirs (_ : String) : List DirEntry := []

/-- Fixture: a safe-directory entry. -/
def eSafeA : DirEntry := ⟨"0xaaa", "ethereum", "Safe", "No Detail"⟩

/-- Fixture: a safe-directory source with an accidentally duplicated row. -/
def fdirsDup (_ : String) : List DirEntry := [eSafeA, eSafeA]

/-- Fixture: a suspicious source with two case-variant rows for one
(case-insensitive) address, carrying different fraud sub-types. -/
def sdirsCase (_ : String) : List DirEntry :=
  [⟨"0xBAD", "ethereum", "High Risk", "Phishing"⟩,
   ⟨"0xbad", "ethereum", "High Risk", "Fake Native"⟩]

/-- Fixture: directory source for the mixed-chain input — the flagged
contract exists only in the ethereum directory; the bsc directory is empty. -/
def dirsMixed (b : String) : List DirEntry :=
  if b = "ethereum" then [⟨"0xbad", "ethereum", "High Risk", "Phishing"⟩]
  else []

/-- Fixture: a bsc transfer of the flagged contract. -/
def tOnBsc : Transfer :=
  ⟨"t2", "0xbad", "0xsender", "0xreceiver", "TKN", 0, "bsc"⟩

/-- Fixture: three transfers all referencing the same flagged contract. -/
def threeSame : List Transfer :=
  [sampleT "t1" "0xabc" 0, sampleT "t2" "0xabc" 0, sampleT "t3" "0xabc" 0]

/-- Fixture: a suspicious source flagging `0xaaa`. -/
def sBoth (_ : String) : List DirEntry :=
  [⟨"0xaaa", "ethereum", "High Risk", "Phishing"⟩]

/-- Fixture: a safe source also listing `0xaaa`. -/
def fBoth (_ : String) : List DirEntry :=
  [⟨"0xaaa", "ethereum", "Safe", "No Detail"⟩]

/-- Fixture: one transfer matching both directories and one matching
neither, most recent first. -/
def tsBoth : List Transfer :=
  [sampleT "t1" "0xaaa" 100, sampleT "t2" "0xzzz" 50]

/-- Fixture: transfers on two different calendar days, the more recent one
of a flagged contract. -/
def tsDays : List Transfer :=
  [sampleT "t1" "0xaaa" 90000, sampleT "t2" "0xbbb" 100]

/-- Fixture: the spec's top-tokens example — contracts A,A,B,A,C,B, most
recent first. -/
def tsTop : List Transfer :=
  [sampleT "t1" "A" 6, sampleT "t2" "A" 5, sampleT "t3" "B" 4,
   sampleT "t4" "A" 3, sampleT "t5" "C" 2, sampleT "t6" "B" 1]

/-- Fixture: a transfer list with a transfer-count tie between two
contracts, `a` encountered first. -/
def tsTie : List Transfer :=
  [sampleT "t1" "a" 4, sampleT "t2" "b" 3, sampleT "t3" "a" 2,
   sampleT "t4" "b" 1]

/-! ### Generic lemmas about the list helpers -/

theorem mem_firstKeysAux {α : Type} [DecidableEq α] (l : List α) :
    ∀ (seen : List α) (x : α), x ∈ firstKeysAux l seen ↔ x ∈ l ∧ x ∉ seen := by
  induction l with
  | nil => intro seen x; simp [firstKeysAux]
  | cons a as ih =>
    intro seen x
    by_cases h : a ∈ seen
    · rw [firstKeysAux, if_pos h, ih]
      constructor
      · rintro ⟨hx, hns⟩; exact ⟨List.mem_cons_of_mem _ hx, hns⟩
      · rintro ⟨hx, hns⟩
        rcases List.mem_cons.1 hx with rfl | hx
        · exact absurd h hns
        · exact ⟨hx, hns⟩
    · rw [firstKeysAux, if_neg h]
      by_cases hxa : x = a
      · subst hxa
        simp [h]
      · simp only [List.mem_cons, hxa, false_or, ih, not_or]

theorem mem_firstKeys {α : Type} [DecidableEq α] (l : List α) (x : α) :
    x ∈ firstKeys l ↔ x ∈ l := by
  rw [firstKeys, mem_firstKeysAux]; simp

theorem nodup_firstKeysAux {α : Type} [DecidableEq α] (l : List α) :
    ∀ seen : List α, (firstKeysAux l seen).Nodup := by
  induction l with
  | nil => intro seen; simp [firstKeysAux]
  | cons a as ih =>
    intro seen
    by_cases h : a ∈ seen
    · rw [firstKeysAux, if_pos h]; exact ih seen
    · rw [firstKeysAux, if_neg h, List.nodup_cons]
      exact ⟨fun hmem => ((mem_firstKeysAux as _ a).1 hmem).2 (List.mem_cons_self a seen),
        ih _⟩

theorem nodup_firstKeys {α : Type} [DecidableEq α] (l : List α) :
    (firstKeys l).Nodup := nodup_firstKeysAux l []

theorem mem_insertLt {α : Type} (lt : α → α → Bool) (x y : α) (l : List α) :
    y ∈ insertLt lt x l ↔ y = x ∨ y ∈ l := by
  induction l with
  | nil => simp [insertLt]
  | cons a as ih =>
    by_cases h : lt x a = true
    · rw [insertLt, if_pos h]
      simp [List.mem_cons]
    · rw [insertLt, if_neg h]
      simp only [List.mem_cons, ih]
      tauto

theorem mem_sortLt {α : Type} (lt : α → α → Bool) (l : List α) (y : α) :
    y ∈ sortLt lt l ↔ y ∈ l := by
  induction l with
  | nil => simp [sortLt]
  | cons a as ih =>
    show y ∈ insertLt lt a (sortLt lt as) ↔ _
    rw [mem_insertLt]
    simp only [List.mem_cons, ih]

theorem nodup_insertLt {α : Type} (lt : α → α → Bool) (x : α) (l : List α)
    (hx : x ∉ l) (hl : l.Nodup) : (insertLt lt x l).Nodup := by
  induction l with
  | nil => simp [insertLt]
  | cons a as ih =>
    rcases List.nodup_cons.1 hl with ⟨ha, has⟩
    have hxa : ¬x = a := fun e => hx (e ▸ List.mem_cons_self a as)
    have hxas : x ∉ as := fun hm => hx (List.mem_cons_of_mem _ hm)
    by_cases h : lt x a = true
    · rw [insertLt, if_pos h, List.nodup_cons]
      exact ⟨fun hmem => by
        rcases List.mem_cons.1 hmem with rfl | hm
        · exact hxa rfl
        · exact hx (List.mem_cons_of_mem _ hm), hl⟩
    · rw [insertLt, if_neg h, List.nodup_cons]
      refine ⟨fun hmem => ?_, ih hxas has⟩
      rcases (mem_insertLt lt x a as).1 hmem with rfl | hm
      · exact hxa rfl
      · exact ha hm

theorem nodup_sortLt {α : Type} (lt : α → α → Bool) (l : List α)
    (hl : l.Nodup) : (sortLt lt l).Nodup := by
  induction l with
  | nil => simp [sortLt]
  | cons a as ih =>
    rcases List.nodup_cons.1 hl with ⟨ha, has⟩
    show (insertLt lt a (sortLt lt as)).Nodup
    exact nodup_insertLt lt a _ (fun hm => ha ((mem_sortLt lt as a).1 hm)) (ih has)

theorem sorted_insertLt_nat (x : Nat) (l : List Nat)
    (hl : l.Pairwise (· ≤ ·)) : (insertLt natLtB x l).Pairwise (· ≤ ·) := by
  induction l with
  | nil => simp [insertLt]
  | cons a as ih =>
    rcases List.pairwise_cons.1 hl with ⟨ha, has⟩
    by_cases h : natLtB x a = true
    · have hxa : x < a := by simpa [natLtB] using h
      rw [insertLt, if_pos h]
      refine List.pairwise_cons.2 ⟨?_, hl⟩
      intro b hb
      rcases List.mem_cons.1 hb with rfl | hbas
      · exact Nat.le_of_lt hxa
      · exact Nat.le_of_lt (Nat.lt_of_lt_of_le hxa (ha _ hbas))
    · have hax : a ≤ x := by
        have : ¬x < a := by simpa [natLtB] using h
        omega
      rw [insertLt, if_neg h]
      refine List.pairwise_cons.2 ⟨?_, ih has⟩
      intro b hb
      rcases (mem_insertLt natLtB x b as).1 hb with rfl | hm
      · exact hax
      · exact ha _ hm

theorem sorted_sortLt_nat (l : List Nat) :
    (sortLt natLtB l).Pairwise (· ≤ ·) := by
  induction l with
  | nil => simp [sortLt]
  | cons a as ih => exact sorted_insertLt_nat a _ ih

theorem pairwise_lt_sortLt_nat (l : List Nat) (hl : l.Nodup) :
    (sortLt natLtB l).Pairwise (· < ·) := by
  have h1 : (sortLt natLtB l).Pairwise (· ≤ ·) := sorted_sortLt_nat l
  have h2 : (sortLt natLtB l).Nodup := nodup_sortLt _ _ hl
  exact (h1.and h2).imp fun {a b} h => Nat.lt_of_le_of_ne h.1 h.2

theorem perm_insertCountLe (p : String × Nat) (l : List (String × Nat)) :
    List.Perm (insertCountLe p l) (p :: l) := by
  induction l with
  | nil => exact List.Perm.refl _
  | cons q qs ih =>
    by_cases h : p.2 ≤ q.2
    · rw [insertCountLe, if_pos h]
    · rw [insertCountLe, if_neg h]
      exact (ih.cons q).trans (List.Perm.swap p q qs)

theorem perm_sortCount (l : List (String × Nat)) :
    List.Perm (l.foldr insertCountLe []) l := by
  induction l with
  | nil => exact List.Perm.refl _
  | cons q qs ih =>
    exact (perm_insertCountLe q _).trans (ih.cons q)

theorem sorted_insertCountLe (p : String × Nat) (l : List (String × Nat))
    (hl : l.Pairwise (fun a b => a.2 ≤ b.2)) :
    (insertCountLe p l).Pairwise (fun a b => a.2 ≤ b.2) := by
  induction l with
  | nil => simp [insertCountLe]
  | cons q qs ih =>
    rcases List.pairwise_cons.1 hl with ⟨hq, hqs⟩
    by_cases h : p.2 ≤ q.2
    · rw [insertCountLe, if_pos h]
      refine List.pairwise_cons.2 ⟨?_, hl⟩
      intro b hb
      rcases List.mem_cons.1 hb with rfl | hbqs
      · exact h
      · exact Nat.le_trans h (hq _ hbqs)
    · have hqp : q.2 ≤ p.2 := Nat.le_of_lt (Nat.lt_of_not_le h)
      rw [insertCountLe, if_neg h]
      refine List.pairwise_cons.2 ⟨?_, ih hqs⟩
      intro b hb
      rcases List.mem_cons.1 ((perm_insertCountLe p qs).mem_iff.1 hb) with rfl | hm
      · exact hqp
      · exact hq _ hm

theorem sorted_sortCount (l : List (String × Nat)) :
    (l.foldr insertCountLe []).Pairwise (fun a b => a.2 ≤ b.2) := by
  induction l with
  | nil => simp
  | cons q qs ih => exact sorted_insertCountLe q _ ih

/-! ### Lemmas about the join, the dedup, and the classifiers -/

theorem mem_mergeInner (ts : List Transfer) (dir : List DirEntry)
    (p : Transfer × DirEntry) :
    p ∈ mergeInner ts dir ↔
      p.1 ∈ ts ∧ p.2 ∈ dir ∧ p.2.contract_address = p.1.contract_address := by
  simp only [mergeInner, List.mem_flatMap, List.mem_map, List.mem_filter,
    beq_iff_eq]
  constructor
  · rintro ⟨t, ht, e, ⟨he, hc⟩, rfl⟩
    exact ⟨ht, he, hc⟩
  · rintro ⟨h1, h2, h3⟩
    exact ⟨p.1, h1, p.2, ⟨h2, h3⟩, rfl⟩

theorem mem_dedupFirstAux_subset (l : List DirEntry) :
    ∀ (seen : List String) (e : DirEntry), e ∈ dedupFirstAux l seen → e ∈ l := by
  induction l with
  | nil => intro seen e h; simp [dedupFirstAux] at h
  | cons a as ih =>
    intro seen e h
    by_cases ha : a.contract_address ∈ seen
    · rw [dedupFirstAux, if_pos ha] at h
      exact List.mem_cons_of_mem _ (ih _ _ h)
    · rw [dedupFirstAux, if_neg ha] at h
      rcases List.mem_cons.1 h with rfl | hm
      · exact List.mem_cons_self _ _
      · exact List.mem_cons_of_mem _ (ih _ _ hm)

theorem addr_notin_seen_of_mem_dedupFirstAux (l : List DirEntry) :
    ∀ (seen : List String) (e : DirEntry), e ∈ dedupFirstAux l seen →
      e.contract_address ∉ seen := by
  induction l with
  | nil => intro seen e h; simp [dedupFirstAux] at h
  | cons a as ih =>
    intro seen e h
    by_cases ha : a.contract_address ∈ seen
    · rw [dedupFirstAux, if_pos ha] at h; exact ih _ _ h
    · rw [dedupFirstAux, if_neg ha] at h
      rcases List.mem_cons.1 h with rfl | hm
      · exact ha
      · intro hs
        exact (ih _ _ hm) (List.mem_cons_of_mem _ hs)

theorem addr_cover_dedupFirstAux (l : List DirEntry) :
    ∀ (seen : List String) (e : DirEntry), e ∈ l → e.contract_address ∉ seen →
      ∃ e' ∈ dedupFirstAux l seen, e'.contract_address = e.contract_address := by
  induction l with
  | nil => intro seen e h; cases h
  | cons a as ih =>
    intro seen e he hs
    by_cases ha : a.contract_address ∈ seen
    · rw [dedupFirstAux, if_pos ha]
      rcases List.mem_cons.1 he with rfl | hm
      · exact absurd ha hs
      · exact ih _ _ hm hs
    · rw [dedupFirstAux, if_neg ha]
      by_cases hae : e.contract_address = a.contract_address
      · exact ⟨a, List.mem_cons_self _ _, hae.symm⟩
      · rcases List.mem_cons.1 he with rfl | hm
        · exact absurd rfl hae
        · have hs' : e.contract_address ∉ a.contract_address :: seen := by
            intro hx
            rcases List.mem_cons.1 hx with h1 | h2
            · exact hae h1
            · exact hs h2
          rcases ih _ _ hm hs' with ⟨e', he', hc⟩
          exact ⟨e', List.mem_cons_of_mem _ he', hc⟩

theorem addr_cover_dedupFirst (l : List DirEntry) (e : DirEntry) (he : e ∈ l) :
    ∃ e' ∈ dedupFirst l, e'.contract_address = e.contract_address := by
  refine addr_cover_dedupFirstAux l [] e he ?_
  intro h; cases h

theorem pairwise_addr_dedupFirstAux (l : List DirEntry) :
    ∀ seen : List String, (dedupFirstAux l seen).Pairwise
      (fun a b => a.contract_address ≠ b.contract_address) := by
  induction l with
  | nil => intro seen; simp [dedupFirstAux]
  | cons a as ih =>
    intro seen
    by_cases ha : a.contract_address ∈ seen
    · rw [dedupFirstAux, if_pos ha]; exact ih seen
    · rw [dedupFirstAux, if_neg ha]
      refine List.pairwise_cons.2 ⟨?_, ih _⟩
      intro b hb hab
      refine addr_notin_seen_of_mem_dedupFirstAux as _ b hb ?_
      rw [← hab]
      exact List.mem_cons_self _ _

theorem dedupFirstAux_eq_self (l : List DirEntry) :
    ∀ seen : List String,
      l.Pairwise (fun a b => a.contract_address ≠ b.contract_address) →
      (∀ e ∈ l, e.contract_address ∉ seen) →
      dedupFirstAux l seen = l := by
  induction l with
  | nil => intro seen _ _; rfl
  | cons a as ih =>
    intro seen hl hse
    rcases List.pairwise_cons.1 hl with ⟨ha, has⟩
    have hna : a.contract_address ∉ seen := hse a (List.mem_cons_self _ _)
    rw [dedupFirstAux, if_neg hna]
    congr 1
    refine ih _ has ?_
    intro e he hs
    rcases List.mem_cons.1 hs with h1 | h2
    · exact ha e he h1.symm
    · exact hse e (List.mem_cons_of_mem _ he) h2

theorem dedupFirst_idem (l : List DirEntry) :
    dedupFirst (dedupFirst l) = dedupFirst l := by
  refine dedupFirstAux_eq_self _ [] (pairwise_addr_dedupFirstAux l []) ?_
  intro e _ h; cases h

theorem fst_mem_of_mem_suspicious (dirs : String → List DirEntry)
    (ts : List Transfer) (p : Transfer × DirEntry)
    (hp : p ∈ (identify_suspicious_transfers dirs ts).2) :
    p.1 ∈ (identify_suspicious_transfers dirs ts).1 := by
  cases ts with
  | nil => cases hp
  | cons t0 rest =>
    by_cases h : (load_suspicious_tokens_by_blockchain dirs t0.blockchain).isEmpty
    · rw [identify_suspicious_transfers] at hp ⊢
      simp only [if_pos h] at hp
      cases hp
    · rw [identify_suspicious_transfers] at hp ⊢
      simp only [if_neg h] at hp ⊢
      exact ((mem_mergeInner _ _ p).1 hp).1

theorem fst_mem_of_mem_safe (dirs : String → List DirEntry)
    (ts : List Transfer) (p : Transfer × DirEntry)
    (hp : p ∈ (identify_safe_transfers dirs ts).2) :
    p.1 ∈ (identify_safe_transfers dirs ts).1 := by
  cases ts with
  | nil => cases hp
  | cons t0 rest =>
    by_cases h : (load_safe_tokens_by_blockchain dirs t0.blockchain).isEmpty
    · rw [identify_safe_transfers] at hp ⊢
      simp only [if_pos h] at hp
      cases hp
    · rw [identify_safe_transfers] at hp ⊢
      simp only [if_neg h] at hp ⊢
      exact ((mem_mergeInner _ _ p).1 hp).1

theorem dateOf_lowerT (t : Transfer) : dateOf (lowerT t) = dateOf t := rfl

theorem map_dateOf_lowerT (ts : List Transfer) :
    (ts.map lowerT).map dateOf = ts.map dateOf := by
  rw [List.map_map]
  have h : dateOf ∘ lowerT = dateOf := funext fun t => rfl
  rw [h]

theorem map_dateOf_fst_suspicious (dirs : String → List DirEntry)
    (ts : List Transfer) :
    ((identify_suspicious_transfers dirs ts).1).map dateOf = ts.map dateOf := by
  cases ts with
  | nil => rfl
  | cons t0 rest =>
    by_cases h : (load_suspicious_tokens_by_blockchain dirs t0.blockchain).isEmpty
    · rw [identify_suspicious_transfers]
      simp only [if_pos h]
    · rw [identify_suspicious_transfers]
      simp only [if_neg h]
      exact map_dateOf_lowerT (t0 :: rest)

theorem map_dateOf_fst_safe (dirs : String → List DirEntry)
    (ts : List Transfer) :
    ((identify_safe_transfers dirs ts).1).map dateOf = ts.map dateOf := by
  cases ts with
  | nil => rfl
  | cons t0 rest =>
    by_cases h : (load_safe_tokens_by_blockchain dirs t0.blockchain).isEmpty
    · rw [identify_safe_transfers]
      simp only [if_pos h]
    · rw [identify_safe_transfers]
      simp only [if_neg h]
      exact map_dateOf_lowerT (t0 :: rest)

/-! ### Claim C3 -/

/-- Claim C3: `analyze_transfers_data` returns the distinguished no-data
signal (`none`) exactly on the empty transfer list, and a populated result
structure on every non-empty list. -/
theorem aggregate_empty_none_nonempty_some :
    (∀ sdirs fdirs : String → List DirEntry,
      analyze_transfers_data sdirs fdirs [] = none) ∧
    (∀ (sdirs fdirs : String → List DirEntry) (ts : List Transfer),
      ts ≠ [] → ∃ r, analyze_transfers_data sdirs fdirs ts = some r) := by
  constructor
  · intro sdirs fdirs; rfl
  · intro sdirs fdirs ts hne
    refine ⟨analyzeCore sdirs fdirs ts, ?_⟩
    have h : ts.isEmpty = false := by
      cases ts with
      | nil => exact absurd rfl hne
      | cons a as => rfl
    simp [analyze_transfers_data, h]

/-- Witness for C3 at concrete inputs: the empty list gives `none`, a
one-transfer list gives `some`. -/
theorem aggregate_empty_none_nonempty_some_witness :
    analyze_transfers_data noDirs noDirs [] = none ∧
    ∃ r, analyze_transfers_data noDirs noDirs [sampleT "t1" "0xabc" 0] =
      some r :=
  ⟨aggregate_empty_none_nonempty_some.1 noDirs noDirs,
   aggregate_empty_none_nonempty_some.2 noDirs noDirs _ (by decide)⟩

/-! ### Claim C2 -/

/-- Claim C2 counterexample: for the SAFE directory the loader performs no
dedup, so an exactly duplicated row multiplies matched transfers — the
classified multiset differs between the raw and the deduplicated directory. -/
theorem safe_dedup_changes_match_multiset :
    ((identify_safe_transfers fdirsDup [sampleT "t1" "0xaaa" 0]).2).length = 2 ∧
    ((identify_safe_transfers (fun b => dedupFirst (fdirsDup b))
        [sampleT "t1" "0xaaa" 0]).2).length = 1 := by decide

/-- Claim C2 (amended): for the SUSPICIOUS directory, pre-deduplicating by
(exact) contract address keeping the first occurrence changes nothing — the
loader already performs exactly this dedup, which is idempotent — so the
matched-transfer multiset (indeed the whole result) is unchanged.  The safe
loader performs no such dedup (see the counterexample). -/
theorem suspicious_dedup_join_invariant (dirs : String → List DirEntry)
    (ts : List Transfer) :
    identify_suspicious_transfers (fun b => dedupFirst (dirs b)) ts =
      identify_suspicious_transfers dirs ts := by
  cases ts with
  | nil => rfl
  | cons t0 rest =>
    rw [identify_suspicious_transfers, identify_suspicious_transfers,
      load_suspicious_tokens_by_blockchain, load_suspicious_tokens_by_blockchain,
      dedupFirst_idem]

/-! ### Claim C9 -/

/-- Claim C9 counterexample: classification does NOT leave the caller's
transfer list unchanged — with a non-empty matching directory the
`contract_address` column is lowercased in place ("0xA" becomes "0xa"). -/
theorem classify_mutates_input :
    (identify_suspicious_transfers sdirsEx [sampleT "t1" "0xABC" 0]).1 ≠
      [sampleT "t1" "0xABC" 0] := by decide

/-- The in-place lowercasing is the identity on a row whose address is
already lowercase. -/
theorem lowerT_eq_self (t : Transfer)
    (h : strLower t.contract_address = t.contract_address) : lowerT t = t := by
  cases t
  simp only [lowerT] at h ⊢
  rw [h]

/-- Claim C9 (amended): the core is deterministic in its inputs, but mutates
the caller's transfer list: classification lowercases every
`contract_address` in place when the matching directory is non-empty.  When
every input address is already lowercase the transfer list is left unchanged
by classification and by aggregation (whose `raw_data` is the same list). -/
theorem classify_preserves_lowercase_input
    (sdirs fdirs : String → List DirEntry) (ts : List Transfer)
    (h : ∀ t ∈ ts, strLower t.contract_address = t.contract_address) :
    (identify_suspicious_transfers sdirs ts).1 = ts ∧
    (identify_safe_transfers fdirs ts).1 = ts ∧
    ∀ r, analyze_transfers_data sdirs fdirs ts = some r → r.raw_data = ts := by
  have hmap : ts.map lowerT = ts := by
    have h1 : ∀ t ∈ ts, lowerT t = id t := fun t ht => lowerT_eq_self t (h t ht)
    rw [List.map_congr_left h1, List.map_id]
  have hsusp : (identify_suspicious_transfers sdirs ts).1 = ts := by
    cases ts with
    | nil => rfl
    | cons t0 rest =>
      by_cases hE :
          (load_suspicious_tokens_by_blockchain sdirs t0.blockchain).isEmpty
      · rw [identify_suspicious_transfers]; simp only [if_pos hE]
      · rw [identify_suspicious_transfers]; simp only [if_neg hE]; exact hmap
  have hsafe : (identify_safe_transfers fdirs ts).1 = ts := by
    cases ts with
    | nil => rfl
    | cons t0 rest =>
      by_cases hE : (load_safe_tokens_by_blockchain fdirs t0.blockchain).isEmpty
      · rw [identify_safe_transfers]; simp only [if_pos hE]
      · rw [identify_safe_transfers]; simp only [if_neg hE]; exact hmap
  refine ⟨hsusp, hsafe, ?_⟩
  intro r hr
  have hne : ts.isEmpty = false := by
    cases ts with
    | nil => exact absurd hr (by simp [analyze_transfers_data])
    | cons a as => rfl
  rw [analyze_transfers_data] at hr
  rw [hne] at hr
  simp only [Bool.false_eq_true, if_false, Option.some.injEq] at hr
  subst hr
  show (identify_safe_transfers fdirs (identify_suspicious_transfers sdirs ts).1).1 = ts
  rw [hsusp, hsafe]

/-- Witness for C9 (amended) at a concrete all-lowercase input. -/
theorem classify_preserves_lowercase_input_witness :
    (identify_suspicious_transfers sdirsEx [sampleT "t1" "0xabc" 0]).1 =
      [sampleT "t1" "0xabc" 0] :=
  (classify_preserves_lowercase_input sdirsEx sdirsEx
    [sampleT "t1" "0xabc" 0] (by decide)).1

/-! ### Claim C10 -/

/-- Claim C10: the code contains NO assertion for a mixed-chain input.  At
the concrete failing input (one ethereum and one bsc transfer of a contract
flagged only in the ethereum directory) classification silently resolves the
directory from the FIRST record's chain and also matches the bsc transfer
against it — the exact silent misclassification the spec says should fail
loudly. -/
theorem mixed_chain_silent_classification :
    dirsMixed "bsc" = [] ∧
    (identify_suspicious_transfers dirsMixed
        [sampleT "t1" "0xbad" 0, tOnBsc]).2 =
      [(lowerT (sampleT "t1" "0xbad" 0),
        lowerE ⟨"0xbad", "ethereum", "High Risk", "Phishing"⟩),
       (lowerT tOnBsc,
        lowerE ⟨"0xbad", "ethereum", "High Risk", "Phishing"⟩)] := by decide

/-! ### Claim C1 -/

/-- Claim C1: classification is an inner join on lowercased contract
addresses.  For a non-empty transfer list (head `t0` fixes the chain whose
directory is used): a transfer contributes to the suspicious output exactly
when some suspicious-directory entry matches its contract address
case-insensitively, and each output row is such a transfer paired with a
matching entry (carrying that entry's `tag` and `tag_1`); likewise for the
safe output. -/
theorem classify_inner_join_membership
    (sdirs fdirs : String → List DirEntry) (t0 : Transfer)
    (rest : List Transfer) :
    (∀ t ∈ t0 :: rest,
      (∃ e ∈ sdirs (strLower t0.blockchain),
          strLower e.contract_address = strLower t.contract_address) →
        ∃ e ∈ sdirs (strLower t0.blockchain),
          strLower e.contract_address = strLower t.contract_address ∧
          (lowerT t, lowerE e) ∈
            (identify_suspicious_transfers sdirs (t0 :: rest)).2) ∧
    (∀ p ∈ (identify_suspicious_transfers sdirs (t0 :: rest)).2,
      ∃ t ∈ t0 :: rest, ∃ e ∈ sdirs (strLower t0.blockchain),
        p = (lowerT t, lowerE e) ∧
        strLower e.contract_address = strLower t.contract_address) ∧
    (∀ t ∈ t0 :: rest,
      (∃ e ∈ fdirs (strLower t0.blockchain),
          strLower e.contract_address = strLower t.contract_address) →
        ∃ e ∈ fdirs (strLower t0.blockchain),
          strLower e.contract_address = strLower t.contract_address ∧
          (lowerT t, lowerE e) ∈
            (identify_safe_transfers fdirs (t0 :: rest)).2) ∧
    (∀ p ∈ (identify_safe_transfers fdirs (t0 :: rest)).2,
      ∃ t ∈ t0 :: rest, ∃ e ∈ fdirs (strLower t0.blockchain),
        p = (lowerT t, lowerE e) ∧
        strLower e.contract_address = strLower t.contract_address) := by
  refine ⟨?_, ?_, ?_, ?_⟩
  · -- suspicious, forward
    rintro t ht ⟨e, he, hc⟩
    rcases addr_cover_dedupFirst _ e he with ⟨e', he', haddr⟩
    have hne : (load_suspicious_tokens_by_blockchain sdirs t0.blockchain).isEmpty
        = false := by
      rcases h : (load_suspicious_tokens_by_blockchain sdirs t0.blockchain) with
        _ | _
      · rw [load_suspicious_tokens_by_blockchain] at h
        rw [h] at he'
        cases he'
      · rfl
    refine ⟨e', mem_dedupFirstAux_subset _ _ _ he', ?_, ?_⟩
    · rw [haddr]; exact hc
    · rw [identify_suspicious_transfers]
      simp only [hne, Bool.false_eq_true, if_false]
      rw [mem_mergeInner]
      refine ⟨List.mem_map_of_mem lowerT ht, List.mem_map_of_mem lowerE he', ?_⟩
      show strLower e'.contract_address = strLower t.contract_address
      rw [haddr]; exact hc
  · -- suspicious, backward
    intro p hp
    by_cases hE : (load_suspicious_tokens_by_blockchain sdirs t0.blockchain).isEmpty
    · rw [identify_suspicious_transfers] at hp
      simp only [if_pos hE] at hp
      cases hp
    · rw [identify_suspicious_transfers] at hp
      simp only [if_neg hE] at hp
      rcases (mem_mergeInner _ _ p).1 hp with ⟨h1, h2, h3⟩
      rcases List.mem_map.1 h1 with ⟨t, ht, hpt⟩
      rcases List.mem_map.1 h2 with ⟨e1, he1, hpe⟩
      refine ⟨t, ht, e1, mem_dedupFirstAux_subset _ _ _ he1, ?_, ?_⟩
      · rw [hpt, hpe]
      · have := h3
        rw [← hpt, ← hpe] at this
        exact this
  · -- safe, forward
    rintro t ht ⟨e, he, hc⟩
    have hne : (load_safe_tokens_by_blockchain fdirs t0.blockchain).isEmpty
        = false := by
      rcases h : (load_safe_tokens_by_blockchain fdirs t0.blockchain) with _ | _
      · rw [load_safe_tokens_by_blockchain] at h
        rw [h] at he
        cases he
      · rfl
    refine ⟨e, he, hc, ?_⟩
    rw [identify_safe_transfers]
    simp only [hne, Bool.false_eq_true, if_false]
    rw [mem_mergeInner]
    exact ⟨List.mem_map_of_mem lowerT ht, List.mem_map_of_mem lowerE he, hc⟩
  · -- safe, backward
    intro p hp
    by_cases hE : (load_safe_tokens_by_blockchain fdirs t0.blockchain).isEmpty
    · rw [identify_safe_transfers] at hp
      simp only [if_pos hE] at hp
      cases hp
    · rw [identify_safe_transfers] at hp
      simp only [if_neg hE] at hp
      rcases (mem_mergeInner _ _ p).1 hp with ⟨h1, h2, h3⟩
      rcases List.mem_map.1 h1 with ⟨t, ht, hpt⟩
      rcases List.mem_map.1 h2 with ⟨e1, he1, hpe⟩
      refine ⟨t, ht, e1, he1, ?_, ?_⟩
      · rw [hpt, hpe]
      · have := h3
        rw [← hpt, ← hpe] at this
        exact this

/-- Witness for C1 on the spec's own example: transfers `0xABC` and `0xabc`
against suspicious entry `0xabc` — the first transfer matches
case-insensitively, and both output rows carry `tag_1 = "Phishing"`. -/
theorem classify_inner_join_membership_witness :
    (∃ e ∈ sdirsEx (strLower (sampleT "t1" "0xABC" 0).blockchain),
      strLower e.contract_address =
        strLower (sampleT "t1" "0xABC" 0).contract_address ∧
      (lowerT (sampleT "t1" "0xABC" 0), lowerE e) ∈
        (identify_suspicious_transfers sdirsEx
          [sampleT "t1" "0xABC" 0, sampleT "t2" "0xabc" 0]).2) ∧
    ((identify_suspicious_transfers sdirsEx
        [sampleT "t1" "0xABC" 0, sampleT "t2" "0xabc" 0]).2).map
        (fun p => p.2.tag_1) = ["Phishing", "Phishing"] :=
  ⟨(classify_inner_join_membership sdirsEx noDirs (sampleT "t1" "0xABC" 0)
      [sampleT "t2" "0xabc" 0]).1 (sampleT "t1" "0xABC" 0) (by decide)
      ⟨ePhish, by decide, by decide⟩,
   by decide⟩

/-! ### Claims C6 and C7 -/

/-- A successful `analyze_transfers_data` call is the core body on a
non-empty input. -/
theorem analyze_some_eq (sdirs fdirs : String → List DirEntry)
    (ts : List Transfer) (r : AnalysisResult)
    (h : analyze_transfers_data sdirs fdirs ts = some r) :
    r = analyzeCore sdirs fdirs ts ∧ ts ≠ [] := by
  cases ts with
  | nil => exact absurd h (by simp [analyze_transfers_data])
  | cons a as =>
    rw [analyze_transfers_data] at h
    simp only [List.isEmpty_cons, Bool.false_eq_true, if_false,
      Option.some.injEq] at h
    exact ⟨h.symm, by simp⟩

/-- Claim C6: in the summary, `suspicious_tokens` is the number of distinct
contract addresses among the suspicious transfers while `suspicious_count`
is the number of suspicious transfer rows. -/
theorem summary_suspicious_counts (sdirs fdirs : String → List DirEntry)
    (ts : List Transfer) (r : AnalysisResult)
    (h : analyze_transfers_data sdirs fdirs ts = some r) :
    r.summary.suspicious_tokens =
      nunique (r.suspicious_transfers.map fun p => p.1.contract_address) ∧
    r.summary.suspicious_count = r.suspicious_transfers.length := by
  rcases analyze_some_eq sdirs fdirs ts r h with ⟨rfl, -⟩
  exact ⟨rfl, rfl⟩

/-- Witness for C6, on the spec's example: 3 transfers of one flagged
contract give `suspicious_tokens = 1` and `suspicious_count = 3`. -/
theorem summary_suspicious_counts_witness :
    ((analyzeCore sdirsEx noDirs threeSame).summary.suspicious_tokens =
      nunique ((analyzeCore sdirsEx noDirs threeSame).suspicious_transfers.map
        fun p => p.1.contract_address) ∧
     (analyzeCore sdirsEx noDirs threeSame).summary.suspicious_count =
      (analyzeCore sdirsEx noDirs threeSame).suspicious_transfers.length) ∧
    (analyzeCore sdirsEx noDirs threeSame).summary.suspicious_tokens = 1 ∧
    (analyzeCore sdirsEx noDirs threeSame).summary.suspicious_count = 3 :=
  ⟨summary_suspicious_counts sdirsEx noDirs threeSame _ rfl, by decide⟩

/-- Full behaviour of one projected row (lines 624-669): flags are mutually
exclusive, the suspicious flag holds exactly on a (tx-hash, contract) match
in the suspicious set, the safe flag only when there was no suspicious match
and a safe match exists, and with no match at all the display tag/detail are
the "Caution"/"No Detail" defaults. -/
theorem recentRowOf_spec (susp safes : List (Transfer × DirEntry))
    (t : Transfer) :
    ((recentRowOf susp safes t).tx_hash = t.tx_hash ∧
     (recentRowOf susp safes t).contract_address = t.contract_address) ∧
    (¬((recentRowOf susp safes t).suspicious = true ∧
       (recentRowOf susp safes t).safe = true)) ∧
    ((recentRowOf susp safes t).suspicious = true ↔
      ∃ p ∈ susp, p.1.tx_hash = t.tx_hash ∧
        p.1.contract_address = t.contract_address) ∧
    ((recentRowOf susp safes t).safe = true ↔
      ((recentRowOf susp safes t).suspicious = false ∧
       ∃ q ∈ safes, q.1.tx_hash = t.tx_hash ∧
         q.1.contract_address = t.contract_address)) ∧
    (((recentRowOf susp safes t).suspicious = false ∧
      (recentRowOf susp safes t).safe = false) →
      (recentRowOf susp safes t).tag = "Caution" ∧
      (recentRowOf susp safes t).tag_1 = "No Detail") := by
  rcases hfs : susp.find? (fun p => p.1.tx_hash == t.tx_hash &&
      p.1.contract_address == t.contract_address) with _ | p
  · rcases hff : safes.find? (fun q => q.1.tx_hash == t.tx_hash &&
        q.1.contract_address == t.contract_address) with _ | q
    · have hS : ∀ p ∈ susp, ¬(p.1.tx_hash = t.tx_hash ∧
          p.1.contract_address = t.contract_address) := by
        intro p hp hc
        have := List.find?_eq_none.1 hfs p hp
        simp [hc.1, hc.2] at this
      have hF : ∀ q ∈ safes, ¬(q.1.tx_hash = t.tx_hash ∧
          q.1.contract_address = t.contract_address) := by
        intro q hq hc
        have := List.find?_eq_none.1 hff q hq
        simp [hc.1, hc.2] at this
      refine ⟨⟨?_, ?_⟩, ?_, ?_, ?_, ?_⟩
      · simp [recentRowOf, hfs, hff]
      · simp [recentRowOf, hfs, hff]
      · simp [recentRowOf, hfs, hff]
      · simp only [recentRowOf, hfs, hff]
        simp only [Bool.false_eq_true, false_iff]
        rintro ⟨p, hp, hc⟩
        exact hS p hp hc
      · simp only [recentRowOf, hfs, hff]
        simp only [Bool.false_eq_true, false_iff, not_and]
        intro _
        rintro ⟨q, hq, hc⟩
        exact hF q hq hc
      · intro _
        simp [recentRowOf, hfs, hff]
    · have hS : ∀ p ∈ susp, ¬(p.1.tx_hash = t.tx_hash ∧
          p.1.contract_address = t.contract_address) := by
        intro p hp hc
        have := List.find?_eq_none.1 hfs p hp
        simp [hc.1, hc.2] at this
      have hqmem : q ∈ safes := List.mem_of_find?_eq_some hff
      have hqpred := List.find?_some hff
      simp only [Bool.and_eq_true, beq_iff_eq] at hqpred
      refine ⟨⟨?_, ?_⟩, ?_, ?_, ?_, ?_⟩
      · simp [recentRowOf, hfs, hff]
      · simp [recentRowOf, hfs, hff]
      · simp [recentRowOf, hfs, hff]
      · simp only [recentRowOf, hfs, hff]
        simp only [Bool.false_eq_true, false_iff]
        rintro ⟨p, hp, hc⟩
        exact hS p hp hc
      · simp only [recentRowOf, hfs, hff]
        simp only [true_iff]
        exact ⟨trivial, q, hqmem, hqpred.1, hqpred.2⟩
      · rintro ⟨-, hferr⟩
        simp [recentRowOf, hfs, hff] at hferr
  · have hpmem : p ∈ susp := List.mem_of_find?_eq_some hfs
    have hppred := List.find?_some hfs
    simp only [Bool.and_eq_true, beq_iff_eq] at hppred
    refine ⟨⟨?_, ?_⟩, ?_, ?_, ?_, ?_⟩
    · simp [recentRowOf, hfs]
    · simp [recentRowOf, hfs]
    · simp [recentRowOf, hfs]
    · simp only [recentRowOf, hfs]
      simp only [true_iff]
      exact ⟨p, hpmem, hppred.1, hppred.2⟩
    · simp [recentRowOf, hfs]
    · rintro ⟨hserr, -⟩
      simp [recentRowOf, hfs] at hserr

/-- Claim C7: in the recent-transfers projection, the suspicious and safe
flags are mutually exclusive with suspicious precedence, and a record that
matched neither classified set displays tag "Caution" and detail
"No Detail". -/
theorem recent_projection_flags (sdirs fdirs : String → List DirEntry)
    (ts : List Transfer) (r : AnalysisResult)
    (h : analyze_transfers_data sdirs fdirs ts = some r) :
    ∀ rec ∈ r.recent_transfers,
      (¬(rec.suspicious = true ∧ rec.safe = true)) ∧
      (rec.suspicious = true ↔
        ∃ p ∈ r.suspicious_transfers, p.1.tx_hash = rec.tx_hash ∧
          p.1.contract_address = rec.contract_address) ∧
      (rec.safe = true ↔ (rec.suspicious = false ∧
        ∃ q ∈ r.safe_transfers, q.1.tx_hash = rec.tx_hash ∧
          q.1.contract_address = rec.contract_address)) ∧
      ((rec.suspicious = false ∧ rec.safe = false) →
        rec.tag = "Caution" ∧ rec.tag_1 = "No Detail") := by
  rcases analyze_some_eq sdirs fdirs ts r h with ⟨rfl, -⟩
  intro rec hrec
  have hrec' : rec ∈
      (sortRecentFirst
        ((identify_safe_transfers fdirs
          (identify_suspicious_transfers sdirs ts).1).1)).map
        (recentRowOf (identify_suspicious_transfers sdirs ts).2
          (identify_safe_transfers fdirs
            (identify_suspicious_transfers sdirs ts).1).2) := hrec
  rcases List.mem_map.1 hrec' with ⟨t, ht, rfl⟩
  have hspec := recentRowOf_spec (identify_suspicious_transfers sdirs ts).2
    (identify_safe_transfers fdirs
      (identify_suspicious_transfers sdirs ts).1).2 t
  rcases hspec with ⟨⟨htx, hca⟩, hexcl, hsusp, hsafe, hdef⟩
  rw [htx, hca]
  exact ⟨hexcl, hsusp, hsafe, hdef⟩

/-- Witness for C7 at a concrete input where one transfer matches both
directories (suspicious wins) and one matches neither ("Caution" /
"No Detail"). -/
theorem recent_projection_flags_witness :
    (∀ rec ∈ (analyzeCore sBoth fBoth tsBoth).recent_transfers,
      (¬(rec.suspicious = true ∧ rec.safe = true)) ∧
      (rec.suspicious = true ↔
        ∃ p ∈ (analyzeCore sBoth fBoth tsBoth).suspicious_transfers,
          p.1.tx_hash = rec.tx_hash ∧
          p.1.contract_address = rec.contract_address) ∧
      (rec.safe = true ↔ (rec.suspicious = false ∧
        ∃ q ∈ (analyzeCore sBoth fBoth tsBoth).safe_transfers,
          q.1.tx_hash = rec.tx_hash ∧
          q.1.contract_address = rec.contract_address)) ∧
      ((rec.suspicious = false ∧ rec.safe = false) →
        rec.tag = "Caution" ∧ rec.tag_1 = "No Detail")) ∧
    ((analyzeCore sBoth fBoth tsBoth).recent_transfers.map
      (fun rec => (rec.suspicious, rec.safe, rec.tag, rec.tag_1))) =
      [(true, false, "High Risk", "Phishing"),
       (false, false, "Caution", "No Detail")] :=
  ⟨recent_projection_flags sBoth fBoth tsBoth _ rfl, by decide⟩

/-! ### Claim C4 -/

/-- A date key absent from a (date, count) table looks up as 0. -/
theorem lookup0_eq_zero (d : Nat) (R : List (Nat × Nat))
    (h : ∀ p ∈ R, p.1 ≠ d) : lookup0 d R = 0 := by
  rw [lookup0]
  have hn : R.find? (fun p => p.1 == d) = none :=
    List.find?_eq_none.2 fun p hp => by simp [h p hp]
  rw [hn]

/-- Shape of both timelines: a left merge of per-day values over the
(possibly mutated) transfer list with per-day values over the suspicious
set, filled with 0.  Conclusions: the timeline has a row exactly for the
days occurring among the input transfers or the suspicious set, a day with
no suspicious row carries 0 in the suspicious column, and rows are strictly
ascending by date. -/
theorem leftMergeFill_spec (ts df : List Transfer)
    (susp : List (Transfer × DirEntry)) (v w : Nat → Nat)
    (L R : List (Nat × Nat))
    (hdf : df.map dateOf = ts.map dateOf)
    (hsd : ∀ p ∈ susp, dateOf p.1 ∈ ts.map dateOf)
    (hL : L = (sortLt natLtB (firstKeys (df.map dateOf))).map fun d => (d, v d))
    (hR : R = (sortLt natLtB (firstKeys ((susp.map Prod.fst).map dateOf))).map
      fun d => (d, w d)) :
    (∀ d, ((∃ t ∈ ts, dateOf t = d) ∨ (∃ p ∈ susp, dateOf p.1 = d)) ↔
       ∃ x ∈ leftMergeFill L R, x.1 = d) ∧
    (∀ x ∈ leftMergeFill L R,
       (¬∃ p ∈ susp, dateOf p.1 = x.1) → x.2.2 = 0) ∧
    (leftMergeFill L R).Pairwise (fun a b => a.1 < b.1) := by
  subst hL hR
  refine ⟨?_, ?_, ?_⟩
  · intro d
    constructor
    · intro hd
      have hdts : d ∈ ts.map dateOf := by
        rcases hd with ⟨t, ht, rfl⟩ | ⟨p, hp, rfl⟩
        · exact List.mem_map_of_mem dateOf ht
        · exact hsd p hp
      have hddf : d ∈ df.map dateOf := by rw [hdf]; exact hdts
      have hk : d ∈ sortLt natLtB (firstKeys (df.map dateOf)) := by
        rw [mem_sortLt, mem_firstKeys]; exact hddf
      exact ⟨(d, v d, lookup0 d _),
        List.mem_map_of_mem _ (List.mem_map_of_mem _ hk), rfl⟩
    · rintro ⟨x, hx, rfl⟩
      rcases List.mem_map.1 hx with ⟨p, hp, rfl⟩
      rcases List.mem_map.1 hp with ⟨d', hd', rfl⟩
      rw [mem_sortLt, mem_firstKeys] at hd'
      have hd2 : d' ∈ ts.map dateOf := by rw [← hdf]; exact hd'
      rcases List.mem_map.1 hd2 with ⟨t, ht, hdt⟩
      exact Or.inl ⟨t, ht, hdt⟩
  · intro x hx hno
    rcases List.mem_map.1 hx with ⟨p, hp, rfl⟩
    show lookup0 p.1 _ = 0
    apply lookup0_eq_zero
    intro q hq hqd
    rcases List.mem_map.1 hq with ⟨d', hd', rfl⟩
    rw [mem_sortLt, mem_firstKeys] at hd'
    rcases List.mem_map.1 hd' with ⟨u, hu, hud⟩
    rcases List.mem_map.1 hu with ⟨pp, hpp, rfl⟩
    exact hno ⟨pp, hpp, by rw [hud]; exact hqd⟩
  · have hkeys : (sortLt natLtB (firstKeys (df.map dateOf))).Pairwise (· < ·) :=
      pairwise_lt_sortLt_nat _ (nodup_firstKeys _)
    rw [leftMergeFill, List.pairwise_map, List.pairwise_map]
    exact hkeys.imp fun h => h

/-- Claim C4: each timeline contains exactly the calendar days present in
the all-transfers series or the suspicious series (the latter is always a
subset of the former, since suspicious transfers come from the same list),
fills a day with no suspicious activity with 0 in the suspicious column, and
is strictly ascending by date. -/
theorem timeline_days_fill_sorted (sdirs fdirs : String → List DirEntry)
    (ts : List Transfer) (r : AnalysisResult)
    (h : analyze_transfers_data sdirs fdirs ts = some r) :
    ((∀ d, ((∃ t ∈ ts, dateOf t = d) ∨
        (∃ p ∈ r.suspicious_transfers, dateOf p.1 = d)) ↔
        ∃ x ∈ r.activity_timeline, x.1 = d) ∧
     (∀ x ∈ r.activity_timeline,
        (¬∃ p ∈ r.suspicious_transfers, dateOf p.1 = x.1) → x.2.2 = 0) ∧
     r.activity_timeline.Pairwise (fun a b => a.1 < b.1)) ∧
    ((∀ d, ((∃ t ∈ ts, dateOf t = d) ∨
        (∃ p ∈ r.suspicious_transfers, dateOf p.1 = d)) ↔
        ∃ x ∈ r.tokens_timeline, x.1 = d) ∧
     (∀ x ∈ r.tokens_timeline,
        (¬∃ p ∈ r.suspicious_transfers, dateOf p.1 = x.1) → x.2.2 = 0) ∧
     r.tokens_timeline.Pairwise (fun a b => a.1 < b.1)) := by
  rcases analyze_some_eq sdirs fdirs ts r h with ⟨rfl, -⟩
  have hdf : ((identify_safe_transfers fdirs
      (identify_suspicious_transfers sdirs ts).1).1).map dateOf =
      ts.map dateOf := by
    rw [map_dateOf_fst_safe, map_dateOf_fst_suspicious]
  have hsd : ∀ p ∈ (identify_suspicious_transfers sdirs ts).2,
      dateOf p.1 ∈ ts.map dateOf := by
    intro p hp
    have h1 := fst_mem_of_mem_suspicious sdirs ts p hp
    have h2 := List.mem_map_of_mem dateOf h1
    rwa [map_dateOf_fst_suspicious] at h2
  exact ⟨leftMergeFill_spec ts _ _ _ _ _ _ hdf hsd rfl rfl,
    leftMergeFill_spec ts _ _ _ _ _ _ hdf hsd rfl rfl⟩

/-- Witness for C4 at a two-day input whose more recent day alone has a
suspicious transfer: both timeline rows exist, the suspicious-free day
carries 0, and rows are ascending. -/
theorem timeline_days_fill_sorted_witness :
    (analyzeCore sBoth noDirs tsDays).activity_timeline.Pairwise
      (fun a b => a.1 < b.1) ∧
    (analyzeCore sBoth noDirs tsDays).activity_timeline = [(0, 1, 0), (1, 1, 1)] ∧
    (analyzeCore sBoth noDirs tsDays).tokens_timeline = [(0, 1, 0), (1, 1, 1)] :=
  ⟨(timeline_days_fill_sorted sBoth noDirs tsDays _ rfl).1.2.2,
   by decide, by decide⟩

/-! ### Claim C8 -/

/-- `value_counts` is a permutation of the first-appearance key/count
table. -/
theorem vc_perm (cs : List String) :
    List.Perm (valueCounts cs)
      ((firstKeys cs).map fun k => (k, countOf cs k)) :=
  (List.reverse_perm _).trans (perm_sortCount _)

/-- Elements of `value_counts` are exactly the distinct keys with their
occurrence counts. -/
theorem vc_mem (cs : List String) (p : String × Nat) :
    p ∈ valueCounts cs ↔ ∃ k ∈ firstKeys cs, p = (k, countOf cs k) := by
  rw [(vc_perm cs).mem_iff, List.mem_map]
  constructor
  · rintro ⟨k, hk, rfl⟩; exact ⟨k, hk, rfl⟩
  · rintro ⟨k, hk, rfl⟩; exact ⟨k, hk, rfl⟩

/-- `value_counts` is descending by count. -/
theorem vc_sorted (cs : List String) :
    (valueCounts cs).Pairwise fun a b => b.2 ≤ a.2 := by
  rw [valueCounts, List.pairwise_reverse]
  exact sorted_sortCount _

/-- The key column of the first-appearance table is the key list itself. -/
theorem base_keys (cs : List String) :
    ((firstKeys cs).map fun k => (k, countOf cs k)).map Prod.fst =
      firstKeys cs := by
  rw [List.map_map]
  exact List.map_id _

/-- `value_counts` has as many rows as there are distinct values. -/
theorem vc_length (cs : List String) :
    (valueCounts cs).length = nunique cs := by
  rw [(vc_perm cs).length_eq, List.length_map, nunique]
  have hperm : List.Perm (firstKeys cs) cs.dedup :=
    (List.perm_ext_iff_of_nodup (nodup_firstKeys cs) cs.nodup_dedup).2
      fun a => by rw [mem_firstKeys, List.mem_dedup]
  exact hperm.length_eq

/-- Claim C8 (amended): `top_tokens` is the first (at most) five rows of
`value_counts` over the final transfer list's contract column: its length is
`min 5 (number of distinct contracts)`, each row is a genuine contract with
its exact transfer count, rows are descending by count, and every distinct
contract left out counts no more than any listed row.  (Tie order between
equal counts follows `value_counts`, which reverses a stable ascending sort
— reverse first-appearance order, not first-appearance order; see the
counterexample.) -/
theorem top_tokens_spec (sdirs fdirs : String → List DirEntry)
    (ts : List Transfer) (r : AnalysisResult)
    (h : analyze_transfers_data sdirs fdirs ts = some r) :
    r.top_tokens.length =
      min 5 (nunique (r.raw_data.map fun t => t.contract_address)) ∧
    (∀ p ∈ r.top_tokens,
      p.1 ∈ r.raw_data.map (fun t => t.contract_address) ∧
      p.2 = countOf (r.raw_data.map fun t => t.contract_address) p.1) ∧
    r.top_tokens.Pairwise (fun a b => b.2 ≤ a.2) ∧
    (∀ c ∈ r.raw_data.map (fun t => t.contract_address),
      c ∉ r.top_tokens.map Prod.fst →
      ∀ p ∈ r.top_tokens,
        countOf (r.raw_data.map fun t => t.contract_address) c ≤ p.2) := by
  rcases analyze_some_eq sdirs fdirs ts r h with ⟨rfl, -⟩
  have htop : (analyzeCore sdirs fdirs ts).top_tokens =
      (valueCounts ((analyzeCore sdirs fdirs ts).raw_data.map
        fun t => t.contract_address)).take 5 := rfl
  set cs := (analyzeCore sdirs fdirs ts).raw_data.map
    fun t => t.contract_address with hcs
  refine ⟨?_, ?_, ?_, ?_⟩
  · rw [htop, List.length_take, vc_length]
  · intro p hp
    have hp' : p ∈ valueCounts cs := List.take_subset _ _ (htop ▸ hp)
    rcases (vc_mem cs p).1 hp' with ⟨k, hk, rfl⟩
    exact ⟨(mem_firstKeys cs k).1 hk, rfl⟩
  · rw [htop]
    exact (vc_sorted cs).sublist (List.take_sublist 5 _)
  · intro c hc hnot p hp
    have hcfk : c ∈ firstKeys cs := (mem_firstKeys cs c).2 hc
    have hcvc : (c, countOf cs c) ∈ valueCounts cs :=
      (vc_mem cs _).2 ⟨c, hcfk, rfl⟩
    have hsplit : valueCounts cs =
        (valueCounts cs).take 5 ++ (valueCounts cs).drop 5 :=
      (List.take_append_drop 5 _).symm
    have hpw := vc_sorted cs
    rw [hsplit] at hpw hcvc
    rcases List.mem_append.1 hcvc with hin | hin
    · exact absurd (List.mem_map_of_mem Prod.fst (htop ▸ hin)) hnot
    · have hcross := (List.pairwise_append.1 hpw).2.2
      exact hcross p (htop ▸ hp) (c, countOf cs c) hin

/-- Witness for C8 on the spec's example `[A,A,B,A,C,B]`: descending
by count, ranking A:3, B:2, C:1. -/
theorem top_tokens_spec_witness :
    (analyzeCore noDirs noDirs tsTop).top_tokens.Pairwise
      (fun a b => b.2 ≤ a.2) ∧
    (analyzeCore noDirs noDirs tsTop).top_tokens =
      [("A", 3), ("B", 2), ("C", 1)] :=
  ⟨(top_tokens_spec noDirs noDirs tsTop _ rfl).2.2.1, by decide⟩

/-- Claim C8 counterexample: on the tie `[a,b,a,b]` (a first-encountered)
the code ranks `b` before `a` — ties are NOT broken by first-encountered
order. -/
theorem top_tokens_tie_order :
    (analyzeCore noDirs noDirs tsTie).top_tokens = [("b", 2), ("a", 2)] ∧
    (analyzeCore noDirs noDirs tsTie).top_tokens ≠ [("a", 2), ("b", 2)] := by
  decide

/-! ### Claim C5 -/

/-- Rounding to one decimal moves a value by at most 1/20. -/
theorem round1_abs_le (q : ℚ) : |round1 q - q| ≤ 1 / 20 := by
  have h : |q * 10 - ((round (q * 10) : ℤ) : ℚ)| ≤ 1 / 2 := abs_sub_round (q * 10)
  rw [abs_sub_comm] at h
  have heq : round1 q - q = (((round (q * 10) : ℤ) : ℚ) - q * 10) / 10 := by
    rw [round1]; ring
  rw [heq, abs_div]
  have h10 : |(10 : ℚ)| = 10 := by norm_num
  rw [h10]
  linarith

/-- Summing pointwise-close lists keeps the sums within `c` per element. -/
theorem list_sum_abs_le {α : Type} (l : List α) (f g : α → ℚ) (c : ℚ)
    (h : ∀ a ∈ l, |f a - g a| ≤ c) :
    |(l.map f).sum - (l.map g).sum| ≤ c * l.length := by
  induction l with
  | nil => simp
  | cons a as ih =>
    have h1 : |f a - g a| ≤ c := h a (List.mem_cons_self _ _)
    have h2 := ih fun b hb => h b (List.mem_cons_of_mem _ hb)
    simp only [List.map_cons, List.sum_cons, List.length_cons]
    have he : f a + (as.map f).sum - (g a + (as.map g).sum)
        = (f a - g a) + ((as.map f).sum - (as.map g).sum) := by ring
    rw [he]
    have h3 : |(f a - g a) + ((as.map f).sum - (as.map g).sum)|
        ≤ |f a - g a| + |(as.map f).sum - (as.map g).sum| := abs_add _ _
    have hc : ((as.length + 1 : ℕ) : ℚ) = (as.length : ℚ) + 1 := by push_cast; ring
    rw [hc]
    calc |(f a - g a) + ((as.map f).sum - (as.map g).sum)|
        ≤ |f a - g a| + |(as.map f).sum - (as.map g).sum| := h3
      _ ≤ c + c * as.length := add_le_add h1 h2
      _ = c * ((as.length : ℚ) + 1) := by ring

/-- When each contract carries a single `tag_1`, the per-tag distinct
contract counts partition the distinct suspicious contracts. -/
theorem tag_counts_partition (S : List (Transfer × DirEntry))
    (hfun : ∀ p ∈ S, ∀ q ∈ S, p.1.contract_address = q.1.contract_address →
      p.2.tag_1 = q.2.tag_1) :
    ((sortLt strLtB (firstKeys (S.map fun p => p.2.tag_1))).map fun g =>
      nunique ((S.filter fun p => p.2.tag_1 == g).map
        fun p => p.1.contract_address)).sum =
      nunique (S.map fun p => p.1.contract_address) := by
  classical
  set tags := sortLt strLtB (firstKeys (S.map fun p => p.2.tag_1)) with htags
  have hnd : tags.Nodup := nodup_sortLt _ _ (nodup_firstKeys _)
  have hmemtags : ∀ g, g ∈ tags ↔ ∃ p ∈ S, p.2.tag_1 = g := by
    intro g
    rw [htags, mem_sortLt, mem_firstKeys, List.mem_map]
  have hF : ∀ (g a : String),
      (a ∈ ((S.filter fun p => p.2.tag_1 == g).map
        fun p => p.1.contract_address).toFinset) ↔
      ∃ p ∈ S, p.2.tag_1 = g ∧ p.1.contract_address = a := by
    intro g a
    rw [List.mem_toFinset, List.mem_map]
    constructor
    · rintro ⟨p, hp, rfl⟩
      rcases List.mem_filter.1 hp with ⟨hps, hpt⟩
      exact ⟨p, hps, by simpa using hpt, rfl⟩
    · rintro ⟨p, hps, hpt, rfl⟩
      exact ⟨p, List.mem_filter.2 ⟨hps, by simpa using hpt⟩, rfl⟩
  have hnu : ∀ l : List String, nunique l = l.toFinset.card :=
    fun l => (List.card_toFinset l).symm
  have hstep : (tags.map fun g =>
      nunique ((S.filter fun p => p.2.tag_1 == g).map
        fun p => p.1.contract_address)).sum =
      tags.toFinset.sum fun g =>
        ((S.filter fun p => p.2.tag_1 == g).map
          fun p => p.1.contract_address).toFinset.card := by
    rw [List.map_congr_left fun g _ => hnu
      ((S.filter fun p => p.2.tag_1 == g).map fun p => p.1.contract_address)]
    exact (List.sum_toFinset _ hnd).symm
  have hdisj : ∀ g1 ∈ tags.toFinset, ∀ g2 ∈ tags.toFinset, g1 ≠ g2 →
      Disjoint
        ((S.filter fun p => p.2.tag_1 == g1).map
          fun p => p.1.contract_address).toFinset
        ((S.filter fun p => p.2.tag_1 == g2).map
          fun p => p.1.contract_address).toFinset := by
    intro g1 _ g2 _ hne12
    rw [Finset.disjoint_left]
    intro a ha1 ha2
    rcases (hF g1 a).1 ha1 with ⟨p, hp, hpt, hpa⟩
    rcases (hF g2 a).1 ha2 with ⟨q, hq, hqt, hqa⟩
    exact hne12 (hpt ▸ hqt ▸ hfun p hp q hq (hpa.trans hqa.symm))
  have hunion : (tags.toFinset.biUnion fun g =>
      ((S.filter fun p => p.2.tag_1 == g).map
        fun p => p.1.contract_address).toFinset) =
      (S.map fun p => p.1.contract_address).toFinset := by
    ext a
    rw [Finset.mem_biUnion]
    constructor
    · rintro ⟨g, _, ha⟩
      rcases (hF g a).1 ha with ⟨p, hp, _, rfl⟩
      exact List.mem_toFinset.2 (List.mem_map_of_mem _ hp)
    · intro ha
      rcases List.mem_map.1 (List.mem_toFinset.1 ha) with ⟨p, hp, rfl⟩
      exact ⟨p.2.tag_1, List.mem_toFinset.2 ((hmemtags _).2 ⟨p, hp, rfl⟩),
        (hF _ _).2 ⟨p, hp, rfl, rfl⟩⟩
  rw [hstep, ← Finset.card_biUnion hdisj, hunion, hnu]

/-- Claim C5 (amended): when every suspicious contract carries a single
`tag_1` across its matched rows (which holds whenever the directory has no
case-variant duplicate rows), each breakdown row's `count` is the number of
distinct contracts of its group and its `percent` is
`round1 (count / total-unique-suspicious-contracts * 100)`, and the percents
sum to 100 within 1/10 per bucket.  Without that hypothesis a contract can
be counted in two groups and the sum can exceed the tolerance (see the
counterexample). -/
theorem fraud_type_breakdown_sum (sdirs fdirs : String → List DirEntry)
    (ts : List Transfer) (r : AnalysisResult)
    (h : analyze_transfers_data sdirs fdirs ts = some r)
    (hne : r.suspicious_transfers ≠ [])
    (hfun : ∀ p ∈ r.suspicious_transfers, ∀ q ∈ r.suspicious_transfers,
      p.1.contract_address = q.1.contract_address → p.2.tag_1 = q.2.tag_1) :
    (∀ row ∈ r.suspicious_tags,
      row.count = nunique ((r.suspicious_transfers.filter
        fun p => p.2.tag_1 == row.tag).map fun p => p.1.contract_address) ∧
      row.percent = round1 ((row.count : ℚ) /
        (nunique (r.suspicious_transfers.map fun p => p.1.contract_address) : ℚ)
        * 100)) ∧
    |(r.suspicious_tags.map TagRow.percent).sum - 100| ≤
      (1 / 10) * (r.suspicious_tags.length : ℚ) := by
  rcases analyze_some_eq sdirs fdirs ts r h with ⟨rfl, -⟩
  set S := (analyzeCore sdirs fdirs ts).suspicious_transfers with hS
  have htags : (analyzeCore sdirs fdirs ts).suspicious_tags =
      suspiciousTagsOf S := rfl
  have htot : nunique (S.map fun p => p.1.contract_address) ≠ 0 := by
    intro h0
    have h1 : (S.map fun p => p.1.contract_address).dedup = [] :=
      List.length_eq_zero.1 h0
    have h2 : (S.map fun p => p.1.contract_address) = [] :=
      (List.dedup_eq_nil _).1 h1
    exact hne (List.map_eq_nil.1 h2)
  constructor
  · intro row hrow
    rw [htags, suspiciousTagsOf] at hrow
    rcases List.mem_map.1 hrow with ⟨g, hg, rfl⟩
    refine ⟨rfl, ?_⟩
    show (if nunique (S.map fun p => p.1.contract_address) = 0 then (0:ℚ)
      else round1 (_ / _ * 100)) = _
    rw [if_neg htot]
  · rw [htags, suspiciousTagsOf]
    simp only [List.map_map]
    set T := nunique (S.map fun p => p.1.contract_address) with hT
    set tags := sortLt strLtB (firstKeys (S.map fun p => p.2.tag_1)) with htg
    set cnt : String → ℕ := fun g =>
      nunique ((S.filter fun p => p.2.tag_1 == g).map
        fun p => p.1.contract_address) with hcnt
    have hcomp : (TagRow.percent ∘ fun g =>
        ({ tag := g, count := cnt g,
           percent := if T = 0 then 0
             else round1 ((cnt g : ℚ) / (T : ℚ) * 100) } : TagRow)) =
        fun g => round1 ((cnt g : ℚ) / (T : ℚ) * 100) := by
      funext g
      show (if T = 0 then (0:ℚ) else round1 ((cnt g : ℚ) / (T : ℚ) * 100)) = _
      rw [if_neg htot]
    rw [hcomp]
    have hsum_exact : (tags.map fun g => (cnt g : ℚ) / (T : ℚ) * 100).sum
        = 100 := by
      have hmc : (tags.map fun g => (cnt g : ℚ) / (T : ℚ) * 100) =
          tags.map fun g => (cnt g : ℚ) * (100 / (T : ℚ)) := by
        refine List.map_congr_left fun g _ => ?_
        ring
      rw [hmc, List.sum_map_mul_right]
      have hcast : (tags.map fun g => ((cnt g : ℕ) : ℚ)).sum =
          (((tags.map cnt).sum : ℕ) : ℚ) := by
        rw [Nat.cast_list_sum, List.map_map]
        rfl
      rw [hcast]
      have hpart : (tags.map cnt).sum = T := tag_counts_partition S hfun
      rw [hpart]
      have hTQ : (T : ℚ) ≠ 0 := Nat.cast_ne_zero.2 htot
      field_simp
    have hclose : |(tags.map fun g => round1 ((cnt g : ℚ) / (T : ℚ) * 100)).sum
        - (tags.map fun g => (cnt g : ℚ) / (T : ℚ) * 100).sum| ≤
        (1 / 20) * tags.length :=
      list_sum_abs_le tags _ _ (1 / 20) fun g _ => round1_abs_le _
    rw [hsum_exact] at hclose
    have hlen : ((tags.map fun g =>
        ({ tag := g, count := cnt g,
           percent := if T = 0 then 0
             else round1 ((cnt g : ℚ) / (T : ℚ) * 100) } : TagRow)).length : ℚ)
        = (tags.length : ℚ) := by
      rw [List.length_map]
    have hnn : (0:ℚ) ≤ (tags.length : ℚ) := Nat.cast_nonneg _
    calc |(tags.map fun g => round1 ((cnt g : ℚ) / (T : ℚ) * 100)).sum - 100|
        ≤ (1 / 20) * tags.length := hclose
      _ ≤ (1 / 10) * tags.length := by linarith
      _ = (1 / 10) * ((tags.map fun g =>
          ({ tag := g, count := cnt g,
             percent := if T = 0 then 0
               else round1 ((cnt g : ℚ) / (T : ℚ) * 100) } : TagRow)).length : ℚ) := by
          rw [hlen]

/-- Witness for C5 (amended) at a one-bucket input: the bound holds. -/
theorem fraud_type_breakdown_sum_witness :
    |((analyzeCore sBoth noDirs [sampleT "t1" "0xaaa" 0]).suspicious_tags.map
      TagRow.percent).sum - 100| ≤
      (1 / 10) *
        ((analyzeCore sBoth noDirs
          [sampleT "t1" "0xaaa" 0]).suspicious_tags.length : ℚ) :=
  (fraud_type_breakdown_sum sBoth noDirs [sampleT "t1" "0xaaa" 0] _ rfl
    (by decide) (by decide)).2

/-- Claim C5 counterexample: with case-variant directory rows `0xBAD`
(Phishing) and `0xbad` (Fake Native) — one case-insensitive address — a
single transfer of `0xbad` joins both rows; the one suspicious contract is
counted in both groups, each group gets 100%, and the percentages sum to
200, far outside 100 ± 0.1 per bucket. -/
theorem fraud_type_breakdown_sum_cex :
    analyze_transfers_data sdirsCase noDirs [sampleT "t1" "0xbad" 0] =
      some (analyzeCore sdirsCase noDirs [sampleT "t1" "0xbad" 0]) ∧
    ((analyzeCore sdirsCase noDirs
      [sampleT "t1" "0xbad" 0]).suspicious_tags.map TagRow.percent).sum = 200 ∧
    ¬(|((analyzeCore sdirsCase noDirs
        [sampleT "t1" "0xbad" 0]).suspicious_tags.map TagRow.percent).sum
        - 100| ≤ (1 / 10) *
        ((analyzeCore sdirsCase noDirs
          [sampleT "t1" "0xbad" 0]).suspicious_tags.length : ℚ)) := by
  have hq : ((analyzeCore sdirsCase noDirs
      [sampleT "t1" "0xbad" 0]).suspicious_tags.map TagRow.percent) =
      [round1 (((1:ℕ) : ℚ) / ((1:ℕ) : ℚ) * 100),
       round1 (((1:ℕ) : ℚ) / ((1:ℕ) : ℚ) * 100)] := rfl
  have hlen : (analyzeCore sdirsCase noDirs
      [sampleT "t1" "0xbad" 0]).suspicious_tags.length = 2 := by decide
  have hval : round1 (((1:ℕ) : ℚ) / ((1:ℕ) : ℚ) * 100) = 100 := by
    rw [round1]
    have h1 : (((1:ℕ) : ℚ) / ((1:ℕ) : ℚ) * 100 * 10) = ((1000:ℕ) : ℚ) := by
      norm_num
    rw [h1, round_natCast]
    norm_num
  refine ⟨rfl, ?_, ?_⟩
  · rw [hq, hval]
    norm_num
  · rw [hq, hval, hlen]
    norm_num
